import Mathlib

/-!
Verification of the iris-redis session store.

Source layout: `store.go` implements the in-process `Store` (a Go map guarded
by an RWMutex, serialized with `encoding/gob`); the database bridge file
implements `Database`, which loads a serialized `Store` from an external
redis service, mutates it in memory, and persists it back with a TTL.

The external redis client (`service.Service`) and the gob codec are not part
of the provided source, so they are modelled from the spec; everything else
is translated directly from the Go source.
-/

namespace IrisRedis

/-- Association-list lookup modelling Go map indexing `m[k]`: the value bound
to `k`, or `none` when the key is unset. -/
def assocGet {α : Type} : List (String × α) → String → Option α
  | [], _ => none
  | (k', v) :: rest, k => if k' = k then some v else assocGet rest k

/-- Association-list update modelling Go map assignment `m[k] = v`: overwrites
the binding for `k` when present, otherwise appends a fresh binding. -/
def assocSet {α : Type} : List (String × α) → String → α → List (String × α)
  | [], k, v => [(k, v)]
  | (k', v') :: rest, k, v =>
    if k' = k then (k, v) :: rest else (k', v') :: assocSet rest k v

/-- Association-list removal modelling Go `delete(m, k)`. -/
def assocDelete {α : Type} : List (String × α) → String → List (String × α)
  | [], _ => []
  | (k', v') :: rest, k =>
    if k' = k then rest else (k', v') :: assocDelete rest k

/-- A list of bindings represents a Go map exactly when its keys are pairwise
distinct. -/
def nodupKeys {α : Type} (l : List (String × α)) : Prop :=
  (l.map Prod.fst).Nodup

theorem assocGet_eq_none_of_not_mem {α : Type} {l : List (String × α)}
    {k : String} (h : k ∉ l.map Prod.fst) : assocGet l k = none := by
  induction l with
  | nil => rfl
  | cons p rest ih =>
    obtain ⟨k', v'⟩ := p
    simp only [List.map_cons, List.mem_cons, not_or] at h
    have hne : ¬k' = k := fun hq => h.1 hq.symm
    simp [assocGet, hne, ih h.2]

theorem assocGet_assocSet_self {α : Type} (l : List (String × α))
    (k : String) (v : α) : assocGet (assocSet l k v) k = some v := by
  induction l with
  | nil => simp [assocGet, assocSet]
  | cons p rest ih =>
    obtain ⟨k', v'⟩ := p
    by_cases h : k' = k <;> simp [assocGet, assocSet, h, ih]

theorem assocGet_assocSet_ne {α : Type} (l : List (String × α))
    {k k2 : String} (v : α) (h : k ≠ k2) :
    assocGet (assocSet l k v) k2 = assocGet l k2 := by
  induction l with
  | nil => simp [assocGet, assocSet, h]
  | cons p rest ih =>
    obtain ⟨k', v'⟩ := p
    by_cases hk : k' = k
    · subst hk
      simp [assocGet, assocSet, h]
    · simp only [assocSet, if_neg hk, assocGet]
      rw [ih]

theorem mem_keys_assocSet {α : Type} (l : List (String × α))
    (k k2 : String) (v : α) :
    k2 ∈ (assocSet l k v).map Prod.fst ↔ k2 = k ∨ k2 ∈ l.map Prod.fst := by
  induction l with
  | nil => simp [assocSet]
  | cons p rest ih =>
    obtain ⟨k', v'⟩ := p
    by_cases h : k' = k
    · subst h
      simp [assocSet]
    · simp only [assocSet, if_neg h, List.map_cons, List.mem_cons, ih]
      tauto

theorem nodupKeys_assocSet {α : Type} {l : List (String × α)}
    (k : String) (v : α) (h : nodupKeys l) : nodupKeys (assocSet l k v) := by
  induction l with
  | nil => simp [assocSet, nodupKeys]
  | cons p rest ih =>
    obtain ⟨k', v'⟩ := p
    simp only [nodupKeys, List.map_cons, List.nodup_cons] at h
    by_cases hk : k' = k
    · subst hk
      simpa [assocSet, nodupKeys] using h
    · simp only [assocSet, if_neg hk, nodupKeys, List.map_cons, List.nodup_cons]
      exact ⟨fun hm => by
        rcases (mem_keys_assocSet rest k k' v).1 hm with h1 | h1
        · exact hk h1
        · exact h.1 h1, ih h.2⟩

theorem mem_keys_assocDelete {α : Type} {l : List (String × α)}
    {k k2 : String} (h : k2 ∈ (assocDelete l k).map Prod.fst) :
    k2 ∈ l.map Prod.fst := by
  induction l with
  | nil => simp [assocDelete] at h
  | cons p rest ih =>
    obtain ⟨k', v'⟩ := p
    simp only [List.map_cons, List.mem_cons]
    by_cases hk : k' = k
    · simp only [assocDelete, if_pos hk] at h
      exact Or.inr h
    · simp only [assocDelete, if_neg hk, List.map_cons, List.mem_cons] at h
      rcases h with h | h
      · exact Or.inl h
      · exact Or.inr (ih h)

theorem nodupKeys_assocDelete {α : Type} {l : List (String × α)}
    (k : String) (h : nodupKeys l) : nodupKeys (assocDelete l k) := by
  induction l with
  | nil => simpa [assocDelete] using h
  | cons p rest ih =>
    obtain ⟨k', v'⟩ := p
    simp only [nodupKeys, List.map_cons, List.nodup_cons] at h
    by_cases hk : k' = k
    · subst hk
      simpa [assocDelete, nodupKeys] using h.2
    · simp only [assocDelete, if_neg hk, nodupKeys, List.map_cons,
        List.nodup_cons]
      exact ⟨fun hm => h.1 (mem_keys_assocDelete hm), ih h.2⟩

theorem assocGet_assocDelete_self {α : Type} {l : List (String × α)}
    (k : String) (h : nodupKeys l) : assocGet (assocDelete l k) k = none := by
  induction l with
  | nil => rfl
  | cons p rest ih =>
    obtain ⟨k', v'⟩ := p
    simp only [nodupKeys, List.map_cons, List.nodup_cons] at h
    by_cases hk : k' = k
    · subst hk
      simp only [assocDelete, if_pos rfl]
      exact assocGet_eq_none_of_not_mem h.1
    · simp [assocDelete, assocGet, hk, ih h.2]

theorem assocGet_assocDelete_ne {α : Type} (l : List (String × α))
    {k k2 : String} (h : k ≠ k2) :
    assocGet (assocDelete l k) k2 = assocGet l k2 := by
  induction l with
  | nil => rfl
  | cons p rest ih =>
    obtain ⟨k', v'⟩ := p
    by_cases hk : k' = k
    · subst hk
      simp [assocDelete, assocGet, h]
    · simp only [assocDelete, if_neg hk, assocGet]
      rw [ih]

theorem assocSet_of_not_mem {α : Type} {l : List (String × α)}
    {k : String} (v : α) (h : k ∉ l.map Prod.fst) :
    assocSet l k v = l ++ [(k, v)] := by
  induction l with
  | nil => rfl
  | cons p rest ih =>
    obtain ⟨k', v'⟩ := p
    simp only [List.map_cons, List.mem_cons, not_or] at h
    have hne : ¬k' = k := fun hq => h.1 hq.symm
    simp [assocSet, hne, ih h.2]

/-- Values held by the session container. The Go code stores arbitrary
interface values; `gob` can encode only values whose concrete type is
registered, so the model closes the domain into string payloads (encodable)
and an opaque family of unencodable values. -/
inductive GoValue : Type where
  | str : String → GoValue
  | unencodable : Nat → GoValue
deriving DecidableEq

/-- Whether `gob` can encode this value. -/
def GoValue.encodable : GoValue → Bool
  | .str _ => true
  | .unencodable _ => false

/-- Modelled from the spec: the wire format is an opaque self-describing
binary encoding (`encoding/gob`, external to the source). One string is
encoded as its length followed by its character codes. -/
def encString (s : String) : List Nat :=
  s.data.length :: s.data.map Char.toNat

/-- Decode one length-prefixed string, returning it with the remaining
bytes; fails on truncated input. -/
def decString : List Nat → Option (String × List Nat)
  | [] => none
  | n :: rest =>
    if n ≤ rest.length then
      some (String.mk ((rest.take n).map Char.ofNat), rest.drop n)
    else none

/-- Modelled from the spec: encoding one value fails exactly when the value
is not encodable under the format. -/
def encValue : GoValue → Option (List Nat)
  | .str s => some (encString s)
  | .unencodable _ => none

/-- Encode a list of key/value pairs; fails when any value is unencodable. -/
def encPairs : List (String × GoValue) → Option (List Nat)
  | [] => some []
  | (k, v) :: ps =>
    match encValue v, encPairs ps with
    | some ev, some es => some (encString k ++ ev ++ es)
    | _, _ => none

/-- Modelled from the spec: serialization of the whole mapping (a pair count
followed by the encoded pairs); fails exactly when some contained value is
not encodable. -/
def serialize (m : List (String × GoValue)) : Option (List Nat) :=
  (encPairs m).map (fun es => m.length :: es)

/-- Decode `n` pairs, inserting each into the accumulated map in stream
order — later bindings for the same key overwrite earlier ones, exactly as
`gob` decoding assigns into a Go map. -/
def decPairsAcc : Nat → List Nat → List (String × GoValue) →
    Option (List (String × GoValue) × List Nat)
  | 0, rest, acc => some (acc, rest)
  | n + 1, rest, acc =>
    match decString rest with
    | none => none
    | some (k, r1) =>
      match decString r1 with
      | none => none
      | some (v, r2) => decPairsAcc n r2 (assocSet acc k (GoValue.str v))

/-- Modelled from the spec: deserialization of a mapping. Empty input is
rejected (`gob` reports EOF), as is any truncated pair stream. -/
def deserialize : List Nat → Option (List (String × GoValue))
  | [] => none
  | c :: rest =>
    match decPairsAcc c rest [] with
    | some (ps, _) => some ps
    | none => none

theorem take_length_append {α : Type} (l r : List α) :
    (l ++ r).take l.length = l := by
  induction l with
  | nil => simp
  | cons a t ih => simp [ih]

theorem drop_length_append {α : Type} (l r : List α) :
    (l ++ r).drop l.length = r := by
  induction l with
  | nil => simp
  | cons a t ih => simp [ih]

theorem decString_encString (s : String) (r : List Nat) :
    decString (encString s ++ r) = some (s, r) := by
  obtain ⟨d⟩ := s
  have h1 : (d.map Char.toNat ++ r).take d.length = d.map Char.toNat := by
    simp
  have h2 : (d.map Char.toNat ++ r).drop d.length = r := by
    simp
  have h3 : (Char.ofNat ∘ Char.toNat) = id := funext fun c => Char.ofNat_toNat c
  simp only [encString, List.cons_append, decString, String.length]
  rw [if_pos (by simp)]
  rw [h1, h2, List.map_map, h3, List.map_id]

/-- Every value in the list is encodable under the format. -/
def allEncodable : List (String × GoValue) → Bool
  | [] => true
  | (_, v) :: rest => v.encodable && allEncodable rest

theorem allEncodable_assocSet {l : List (String × GoValue)} (k : String)
    {v : GoValue} (hv : v.encodable = true) (h : allEncodable l = true) :
    allEncodable (assocSet l k v) = true := by
  induction l with
  | nil => simp [assocSet, allEncodable, hv]
  | cons p rest ih =>
    obtain ⟨k', v'⟩ := p
    simp only [allEncodable, Bool.and_eq_true] at h
    by_cases hk : k' = k
    · simp [assocSet, hk, allEncodable, hv, h.2]
    · simp [assocSet, hk, allEncodable, h.1, ih h.2]

theorem allEncodable_assocDelete {l : List (String × GoValue)} (k : String)
    (h : allEncodable l = true) : allEncodable (assocDelete l k) = true := by
  induction l with
  | nil => simpa [assocDelete] using h
  | cons p rest ih =>
    obtain ⟨k', v'⟩ := p
    simp only [allEncodable, Bool.and_eq_true] at h
    by_cases hk : k' = k
    · simp [assocDelete, hk, h.2]
    · simp [assocDelete, hk, allEncodable, h.1, ih h.2]

theorem encPairs_isSome_of_allEncodable {m : List (String × GoValue)}
    (h : allEncodable m = true) : ∃ es, encPairs m = some es := by
  induction m with
  | nil => exact ⟨[], rfl⟩
  | cons p ps ih =>
    obtain ⟨k, v⟩ := p
    simp only [allEncodable, Bool.and_eq_true] at h
    obtain ⟨es, hes⟩ := ih h.2
    cases v with
    | str s =>
      exact ⟨encString k ++ encString s ++ es, by simp [encPairs, encValue, hes]⟩
    | unencodable t => simp [GoValue.encodable] at h

theorem serialize_isSome_of_allEncodable {m : List (String × GoValue)}
    (h : allEncodable m = true) : ∃ b, serialize m = some b := by
  obtain ⟨es, hes⟩ := encPairs_isSome_of_allEncodable h
  exact ⟨m.length :: es, by simp [serialize, hes]⟩

theorem decPairsAcc_props (n : Nat) :
    ∀ (l : List Nat) (acc ps : List (String × GoValue)) (r : List Nat),
    decPairsAcc n l acc = some (ps, r) →
    (allEncodable acc = true → allEncodable ps = true) ∧
    (nodupKeys acc → nodupKeys ps) := by
  induction n with
  | zero =>
    intro l acc ps r h
    simp only [decPairsAcc, Option.some.injEq, Prod.mk.injEq] at h
    obtain ⟨rfl, rfl⟩ := h
    exact ⟨id, id⟩
  | succ n ih =>
    intro l acc ps r h
    simp only [decPairsAcc] at h
    cases h1 : decString l with
    | none => simp only [h1] at h; cases h
    | some kr =>
      obtain ⟨k, r1⟩ := kr
      simp only [h1] at h
      cases h2 : decString r1 with
      | none => simp only [h2] at h; cases h
      | some vr =>
        obtain ⟨v, r2⟩ := vr
        simp only [h2] at h
        have hrec := ih r2 (assocSet acc k (GoValue.str v)) ps r h
        refine ⟨fun ha => hrec.1 ?_, fun hn => hrec.2 (nodupKeys_assocSet k _ hn)⟩
        exact allEncodable_assocSet k rfl ha

theorem deserialize_props {d : List Nat} {m : List (String × GoValue)}
    (h : deserialize d = some m) :
    allEncodable m = true ∧ nodupKeys m := by
  cases d with
  | nil => simp [deserialize] at h
  | cons c rest =>
    simp only [deserialize] at h
    cases h1 : decPairsAcc c rest [] with
    | none => rw [h1] at h; simp at h
    | some pr =>
      obtain ⟨ps, r⟩ := pr
      rw [h1] at h
      simp only [Option.some.injEq] at h
      subst h
      have hp := decPairsAcc_props c rest [] ps r h1
      exact ⟨hp.1 rfl, hp.2 (by simp [nodupKeys])⟩

theorem decPairsAcc_encPairs {m : List (String × GoValue)} :
    ∀ (es r : List Nat) (acc : List (String × GoValue)),
    encPairs m = some es →
    decPairsAcc m.length (es ++ r) acc =
      some (m.foldl (fun a p => assocSet a p.1 p.2) acc, r) := by
  induction m with
  | nil =>
    intro es r acc h
    simp only [encPairs, Option.some.injEq] at h
    subst h
    simp [decPairsAcc]
  | cons p ps ih =>
    intro es r acc h
    obtain ⟨k, v⟩ := p
    cases v with
    | unencodable t => simp [encPairs, encValue] at h
    | str sv =>
      cases hps : encPairs ps with
      | none => simp [encPairs, encValue, hps] at h
      | some es' =>
        simp only [encPairs, encValue, hps, Option.some.injEq] at h
        subst h
        simp only [List.length_cons, List.append_assoc, decPairsAcc,
          decString_encString, List.foldl_cons]
        exact ih es' r (assocSet acc k (GoValue.str sv)) hps

theorem foldl_assocSet_eq_append {α : Type} :
    ∀ (m acc : List (String × α)), nodupKeys m →
    (∀ k2, k2 ∈ m.map Prod.fst → k2 ∉ acc.map Prod.fst) →
    m.foldl (fun a p => assocSet a p.1 p.2) acc = acc ++ m := by
  intro m
  induction m with
  | nil => intro acc _ _; simp
  | cons p ps ih =>
    intro acc hm hdisj
    obtain ⟨k, v⟩ := p
    simp only [nodupKeys, List.map_cons, List.nodup_cons] at hm
    have hknotin : k ∉ acc.map Prod.fst := hdisj k (by simp)
    rw [List.foldl_cons]
    have hstep : assocSet acc k v = acc ++ [(k, v)] :=
      assocSet_of_not_mem v hknotin
    simp only at hstep ⊢
    rw [hstep, ih (acc ++ [(k, v)]) hm.2 ?_]
    · simp
    · intro k2 hk2 hk2acc
      simp only [List.map_append, List.mem_append, List.map_cons,
        List.map_nil, List.mem_singleton] at hk2acc
      rcases hk2acc with hin | hin
      · exact hdisj k2 (by simp [hk2]) hin
      · subst hin
        exact hm.1 hk2

theorem deserialize_serialize {m : List (String × GoValue)} {b : List Nat}
    (hnd : nodupKeys m) (h : serialize m = some b) :
    deserialize b = some m := by
  cases hes : encPairs m with
  | none => simp [serialize, hes] at h
  | some es =>
    simp only [serialize, hes, Option.map_some', Option.some.injEq] at h
    subst h
    have hd := decPairsAcc_encPairs es [] [] hes
    rw [List.append_nil] at hd
    have hfold : m.foldl (fun a p => assocSet a p.1 p.2) [] = m := by
      have hf := foldl_assocSet_eq_append m [] hnd (by simp)
      simpa using hf
    cases m with
    | nil =>
      simp only [encPairs, Option.some.injEq] at hes
      subst hes
      rfl
    | cons p ps =>
      simp only [deserialize, hd, hfold]

/-- The in-process store from `store.go`: a Go map from keys to values. The
RWMutex field has no data content; the lock calls each method performs are
transcribed separately as `LockKind` footprints below. -/
structure Store : Type where
  values : List (String × GoValue)
deriving DecidableEq

/-- `NewStore` from `store.go`: a store with a fresh empty map. -/
def NewStore : Store := ⟨[]⟩

/-- Which lock of the RWMutex a `Store` method acquires for the duration of
its body, transcribed from the lock calls in `store.go`. -/
inductive LockKind : Type where
  | noLock : LockKind
  | shared : LockKind
  | exclusive : LockKind
deriving DecidableEq

/-- Two lock acquisitions are mutually exclusive exactly when both are real
locks and at least one of them is the exclusive lock. -/
def LockKind.excludes : LockKind → LockKind → Bool
  | .exclusive, .exclusive => true
  | .exclusive, .shared => true
  | .shared, .exclusive => true
  | _, _ => false

namespace Store

/-- `Store.Set` from `store.go`: assigns `values[key] = value` and returns
the nil error. -/
def set (rs : Store) (key : String) (value : GoValue) : Store × Option Unit :=
  (⟨assocSet rs.values key value⟩, none)

/-- `Store.Get` from `store.go`: the value bound to `key` when present,
otherwise the nil sentinel (not an error). -/
def get (rs : Store) (key : String) : Option GoValue :=
  match assocGet rs.values key with
  | some v => some v
  | none => none

/-- `Store.Delete` from `store.go`: removes `key` and returns the nil
error. -/
def delete (rs : Store) (key : String) : Store × Option Unit :=
  (⟨assocDelete rs.values key⟩, none)

/-- `Store.Flush` from `store.go`: replaces the map with a fresh empty one
and returns the nil error. -/
def flush (_ : Store) : Store × Option Unit :=
  (⟨[]⟩, none)

/-- `Store.Serialize` from `store.go`: gob-encodes the current map,
returning the bytes on success and the encoding error otherwise. -/
def serializeOp (rs : Store) : Except Unit (List Nat) :=
  match serialize rs.values with
  | some b => Except.ok b
  | none => Except.error ()

/-- `Store.Deserialize` from `store.go`: gob-decodes `d` into the map. On
success the decoded mapping replaces the current one; on failure the decode
error is returned (and the caller keeps its store as it was). -/
def deserializeOp (_rs : Store) (d : List Nat) : Except Unit Store :=
  match deserialize d with
  | some m => Except.ok ⟨m⟩
  | none => Except.error ()

/-- `Store.Set` calls `rs.lock.Lock()` (exclusive), `store.go` lines 21-26. -/
def setLockKind : LockKind := .exclusive

/-- `Store.Get` calls `rs.lock.RLock()` (shared), `store.go` lines 29-36. -/
def getLockKind : LockKind := .shared

/-- `Store.Delete` calls `rs.lock.Lock()` (exclusive), `store.go` lines
39-44. -/
def deleteLockKind : LockKind := .exclusive

/-- `Store.Flush` calls `rs.lock.Lock()` (exclusive), `store.go` lines
47-52. -/
def flushLockKind : LockKind := .exclusive

/-- `Store.Serialize` (`store.go` lines 55-63) contains no lock call at
all: it reads `rs.values` without acquiring the RWMutex. -/
def serializeLockKind : LockKind := .noLock

/-- `Store.Deserialize` (`store.go` lines 66-69) contains no lock call at
all: it writes `rs.values` without acquiring the RWMutex. -/
def deserializeLockKind : LockKind := .noLock

end Store

/-- Modelled from the spec: one entry of the external TTL store — the raw
payload bytes and the optional remaining TTL in seconds (`none` means no
expiration is set). -/
structure RedisEntry : Type where
  payload : List Nat
  ttl : Option Int
deriving DecidableEq

/-- Modelled from the spec: the state of the external TTL store, keyed by
session identifier. -/
structure RedisState : Type where
  entries : List (String × RedisEntry)
deriving DecidableEq

/-- Modelled from the spec: `service.Get` returns the entry's bytes, or a
not-found failure (`none`) when the identifier is absent. -/
def redisGet (st : RedisState) (id : String) : Option (List Nat) :=
  (assocGet st.entries id).map RedisEntry.payload

/-- Modelled from the spec: `service.Set` stores `payload` under `id` with
the given TTL in seconds. -/
def redisSet (st : RedisState) (id : String) (payload : List Nat)
    (ttlSeconds : Int) : RedisState :=
  ⟨assocSet st.entries id ⟨payload, some ttlSeconds⟩⟩

/-- Modelled from the spec: `service.Exist`. -/
def redisExist (st : RedisState) (id : String) : Bool :=
  (assocGet st.entries id).isSome

/-- Modelled from the spec: `service.Delete` removes the entry. -/
def redisDelete (st : RedisState) (id : String) : RedisState :=
  ⟨assocDelete st.entries id⟩

/-- Modelled from the spec: `service.TTL` returns the remaining seconds,
whether an expiration is set, and whether the entry exists (redis reports
-2 for a missing key and -1 for a key without expiration). -/
def redisTTL (st : RedisState) (id : String) : Int × Bool × Bool :=
  match assocGet st.entries id with
  | none => (-2, false, false)
  | some e =>
    match e.ttl with
    | none => (-1, false, true)
    | some s => (s, true, true)

/-- Modelled from the spec: `service.UpdateTTL` refreshes the TTL of an
existing entry without touching its payload, and fails when the entry is
absent. -/
def redisUpdateTTL (st : RedisState) (id : String) (ttlSeconds : Int) :
    Except Unit RedisState :=
  match assocGet st.entries id with
  | none => Except.error ()
  | some e => Except.ok ⟨assocSet st.entries id ⟨e.payload, some ttlSeconds⟩⟩

namespace Database

/-- `Database.get` from the bridge source: fetch the serialized snapshot
stored under `key` and decode it into `store`. A missing entry returns with
the store untouched; a decode failure is logged and likewise leaves the
store as it was. -/
def get (st : RedisState) (key : String) (store : Store) : Store :=
  match redisGet st key with
  | none => store
  | some data =>
    match deserialize data with
    | none => store
    | some m => ⟨m⟩

/-- The load step every public bridge operation performs: `Database.get`
applied to a freshly created empty store. -/
def load (st : RedisState) (sid : String) : Store :=
  get st sid NewStore

/-- `Database.set` (lowercase) from the bridge source: serialize the store
and write the bytes back under `sid`. A serialize failure is logged and the
function returns without persisting; a store write failure is logged. No
error is returned — the function has no return value in the source. -/
def set (st : RedisState) (sid : String) (secondsLifetime : Int)
    (store : Store) : RedisState :=
  match serialize store.values with
  | none => st
  | some valueBytes => redisSet st sid valueBytes secondsLifetime

/-- `Database.Set` from the bridge source: load, assign
`store.values[key] = value`, persist. `lifetimeSeconds` stands for the Go
expression `lifetime.DurationUntilExpiration().Seconds()`; the `immutable`
flag is ignored by the source. -/
def Set (st : RedisState) (sid : String) (lifetimeSeconds : Int)
    (key : String) (value : GoValue) (_immutable : Bool) : RedisState :=
  set st sid lifetimeSeconds ⟨assocSet (load st sid).values key value⟩

/-- `Database.Get` from the bridge source: load, then index the map —
`nil` (here `none`) when the key is unset. -/
def Get (st : RedisState) (sid : String) (key : String) : Option GoValue :=
  assocGet (load st sid).values key

/-- `Database.Visit` from the bridge source iterates all loaded entries,
invoking the callback on each; the model returns the list of pairs the
callback receives. -/
def Visit (st : RedisState) (sid : String) : List (String × GoValue) :=
  (load st sid).values

/-- `Database.Len` from the bridge source: the number of loaded entries. -/
def Len (st : RedisState) (sid : String) : Nat :=
  (load st sid).values.length

/-- `Database.Delete` from the bridge source: load; when the key exists,
delete it, persist with expiration argument 0 and report `true`; otherwise
report `false` without persisting. -/
def Delete (st : RedisState) (sid : String) (key : String) :
    RedisState × Bool :=
  let store := load st sid
  match assocGet store.values key with
  | some _ => (set st sid 0 ⟨assocDelete store.values key⟩, true)
  | none => (st, false)

/-- `Database.Clear` from the bridge source: load; when non-empty, flush
and persist with expiration argument 0. -/
def Clear (st : RedisState) (sid : String) : RedisState :=
  let store := load st sid
  if store.values.length > 0 then set st sid 0 ⟨[]⟩ else st

/-- `Database.Acquire` from the bridge source. `expiresSeconds` stands for
`expires.Seconds()` and `now` for `time.Now()`; the returned
`Option Int` is the `sessions.LifeTime` — `none` is the empty lifetime
signal, `some t` the concrete expiration timestamp `now + seconds`. -/
def Acquire (st : RedisState) (sid : String) (expiresSeconds : Int)
    (now : Int) : RedisState × Option Int :=
  let t := redisTTL st sid
  if !t.2.2 then (redisSet st sid [] expiresSeconds, none)
  else if !t.2.1 then (st, none)
  else (st, some (now + t.1))

/-- `Database.OnUpdateExpiration` from the bridge source: directly returns
`db.redis.UpdateTTL(sid, newExpires.Seconds())`, so the service error (or
success) passes through to the caller unchanged. -/
def OnUpdateExpiration (st : RedisState) (sid : String)
    (newExpiresSeconds : Int) : Except Unit RedisState :=
  redisUpdateTTL st sid newExpiresSeconds

/-- `Database.Release` from the bridge source: `Clear` then delete the
session entry from the external store. -/
def Release (st : RedisState) (sid : String) : RedisState :=
  redisDelete (Clear st sid) sid

end Database

/-- The store produced by the load step always has encodable values and
map-like (duplicate-free) keys: it is either the fresh empty store or the
output of a successful decode. -/
theorem load_allEncodable_nodupKeys (st : RedisState) (sid : String) :
    allEncodable (Database.load st sid).values = true ∧
    nodupKeys (Database.load st sid).values := by
  unfold Database.load Database.get
  split
  · exact ⟨rfl, by simp [NewStore, nodupKeys]⟩
  · split
    · exact ⟨rfl, by simp [NewStore, nodupKeys]⟩
    · next m hm => exact deserialize_props hm

/-- C1: serializing a ValueStore holding a mapping M with Serialize and
calling Deserialize on the produced bytes in a fresh empty ValueStore yields
exactly the mapping M — same keys, same values, nothing missing or added.
(The hypothesis `nodupKeys` states that `s.values` represents a mapping,
which every Go map state does.) -/
theorem c1_serialize_deserialize_roundtrip (s : Store) (b : List Nat)
    (hmap : nodupKeys s.values) (hser : Store.serializeOp s = Except.ok b) :
    Store.deserializeOp NewStore b = Except.ok s := by
  unfold Store.serializeOp at hser
  cases hs : serialize s.values with
  | none => rw [hs] at hser; cases hser
  | some b2 =>
    rw [hs] at hser
    cases hser
    unfold Store.deserializeOp
    rw [deserialize_serialize hmap hs]

/-- Witness for C1 at the concrete mapping `a ↦ x, b ↦ y`. -/
theorem c1_serialize_deserialize_roundtrip_witness :
    Store.deserializeOp NewStore [2, 1, 97, 1, 120, 1, 98, 1, 121] =
      Except.ok ⟨[("a", GoValue.str "x"), ("b", GoValue.str "y")]⟩ :=
  c1_serialize_deserialize_roundtrip
    ⟨[("a", GoValue.str "x"), ("b", GoValue.str "y")]⟩
    [2, 1, 97, 1, 120, 1, 98, 1, 121] (by unfold nodupKeys; decide) (by rfl)

/-- C2: in a single-threaded run (the modelled store's load and persist
round-trips succeed), `Database.Set sid lifetime k v` followed immediately
by `Database.Get sid k` returns `v`. -/
theorem c2_set_then_get (st : RedisState) (sid : String)
    (lifetimeSeconds : Int) (k v : String) (immutable : Bool) :
    Database.Get
        (Database.Set st sid lifetimeSeconds k (GoValue.str v) immutable)
        sid k = some (GoValue.str v) := by
  have hload := load_allEncodable_nodupKeys st sid
  have hall :
      allEncodable (assocSet (Database.load st sid).values k (GoValue.str v))
        = true :=
    allEncodable_assocSet k rfl hload.1
  have hnd :
      nodupKeys (assocSet (Database.load st sid).values k (GoValue.str v)) :=
    nodupKeys_assocSet k _ hload.2
  obtain ⟨b, hb⟩ := serialize_isSome_of_allEncodable hall
  have hset :
      Database.Set st sid lifetimeSeconds k (GoValue.str v) immutable =
        redisSet st sid b lifetimeSeconds := by
    unfold Database.Set Database.set
    rw [hb]
  rw [hset]
  have hg : redisGet (redisSet st sid b lifetimeSeconds) sid = some b := by
    unfold redisGet redisSet
    rw [assocGet_assocSet_self]
    rfl
  have hd : deserialize b =
      some (assocSet (Database.load st sid).values k (GoValue.str v)) :=
    deserialize_serialize hnd hb
  unfold Database.Get Database.load Database.get
  simp only [hg, hd]
  exact assocGet_assocSet_self _ _ _

/-- C3: deleting an existing key reports `true`, persists the pruned
snapshot with expiration argument 0, and a subsequent Get returns absent;
deleting a missing key reports `false`, performs no persist (the external
state is unchanged), and every other key reads the same as before. -/
theorem c3_delete_semantics (st : RedisState) (sid k : String) :
    (∀ v, assocGet (Database.load st sid).values k = some v →
      (Database.Delete st sid k).2 = true ∧
      (∃ b, serialize (assocDelete (Database.load st sid).values k) = some b ∧
        (Database.Delete st sid k).1 = redisSet st sid b 0) ∧
      Database.Get (Database.Delete st sid k).1 sid k = none) ∧
    (assocGet (Database.load st sid).values k = none →
      Database.Delete st sid k = (st, false) ∧
      ∀ k2, Database.Get (Database.Delete st sid k).1 sid k2 =
        Database.Get st sid k2) := by
  have hload := load_allEncodable_nodupKeys st sid
  constructor
  · intro v hv
    have hall :
        allEncodable (assocDelete (Database.load st sid).values k) = true :=
      allEncodable_assocDelete k hload.1
    have hnd : nodupKeys (assocDelete (Database.load st sid).values k) :=
      nodupKeys_assocDelete k hload.2
    obtain ⟨b, hb⟩ := serialize_isSome_of_allEncodable hall
    have hDel : Database.Delete st sid k = (redisSet st sid b 0, true) := by
      simp only [Database.Delete, Database.set, hv, hb]
    refine ⟨by rw [hDel], ⟨b, hb, by rw [hDel]⟩, ?_⟩
    rw [hDel]
    have hg : redisGet (redisSet st sid b 0) sid = some b := by
      unfold redisGet redisSet
      rw [assocGet_assocSet_self]
      rfl
    have hd : deserialize b =
        some (assocDelete (Database.load st sid).values k) :=
      deserialize_serialize hnd hb
    unfold Database.Get Database.load Database.get
    simp only [hg, hd]
    exact assocGet_assocDelete_self k hload.2
  · intro hv
    have hDel : Database.Delete st sid k = (st, false) := by
      simp only [Database.Delete, hv]
    exact ⟨hDel, fun k2 => by rw [hDel]⟩

/-- Witness for C3: a session whose snapshot holds `k ↦ v`; deleting `k`
succeeds and empties it, deleting the missing `z` changes nothing. -/
theorem c3_delete_semantics_witness :
    (Database.Delete ⟨[("s", ⟨[1, 1, 107, 1, 118], some 50⟩)]⟩ "s" "k").2
        = true ∧
    Database.Get
        (Database.Delete ⟨[("s", ⟨[1, 1, 107, 1, 118], some 50⟩)]⟩ "s" "k").1
        "s" "k" = none ∧
    Database.Delete ⟨[("s", ⟨[1, 1, 107, 1, 118], some 50⟩)]⟩ "s" "z" =
      (⟨[("s", ⟨[1, 1, 107, 1, 118], some 50⟩)]⟩, false) := by
  have h1 := c3_delete_semantics ⟨[("s", ⟨[1, 1, 107, 1, 118], some 50⟩)]⟩
    "s" "k"
  have h2 := c3_delete_semantics ⟨[("s", ⟨[1, 1, 107, 1, 118], some 50⟩)]⟩
    "s" "z"
  have ha := h1.1 (GoValue.str "v") (by decide)
  exact ⟨ha.1, ha.2.2, (h2.2 (by decide)).1⟩

/-- C4: Acquire returns a concrete timestamp `now + seconds` exactly when
the store reports the entry found with an active TTL; when the entry is
absent it first creates an entry with empty payload and TTL equal to the
default expiration and returns the empty lifetime signal; when the entry
exists without a TTL it returns the empty lifetime signal. -/
theorem c4_acquire_lifetime (st : RedisState) (sid : String)
    (expiresSeconds now : Int) :
    (assocGet st.entries sid = none →
      Database.Acquire st sid expiresSeconds now =
        (redisSet st sid [] expiresSeconds, none) ∧
      assocGet (redisSet st sid [] expiresSeconds).entries sid =
        some ⟨[], some expiresSeconds⟩) ∧
    (∀ e, assocGet st.entries sid = some e → e.ttl = none →
      Database.Acquire st sid expiresSeconds now = (st, none)) ∧
    (∀ e s, assocGet st.entries sid = some e → e.ttl = some s →
      Database.Acquire st sid expiresSeconds now = (st, some (now + s))) := by
  refine ⟨fun h => ⟨?_, ?_⟩, fun e he ht => ?_, fun e s he ht => ?_⟩
  · simp [Database.Acquire, redisTTL, h]
  · unfold redisSet
    rw [assocGet_assocSet_self]
  · simp [Database.Acquire, redisTTL, he, ht]
  · simp [Database.Acquire, redisTTL, he, ht]

/-- Witness for C4: an absent entry, an entry with no TTL, and an entry
with TTL 7 (with `now = 100`). -/
theorem c4_acquire_lifetime_witness :
    Database.Acquire ⟨[]⟩ "s" 30 0 = (redisSet ⟨[]⟩ "s" [] 30, none) ∧
    Database.Acquire ⟨[("s", ⟨[], none⟩)]⟩ "s" 30 0 =
      (⟨[("s", ⟨[], none⟩)]⟩, none) ∧
    Database.Acquire ⟨[("s", ⟨[], some 7⟩)]⟩ "s" 30 100 =
      (⟨[("s", ⟨[], some 7⟩)]⟩, some (100 + 7)) := by
  have h1 := (c4_acquire_lifetime ⟨[]⟩ "s" 30 0).1 rfl
  have he2 : assocGet (RedisState.mk [("s", RedisEntry.mk [] none)]).entries
      "s" = some (RedisEntry.mk [] none) := rfl
  have he3 : assocGet (RedisState.mk
      [("s", RedisEntry.mk [] (some 7))]).entries "s" =
      some (RedisEntry.mk [] (some 7)) := rfl
  have h2 := (c4_acquire_lifetime ⟨[("s", ⟨[], none⟩)]⟩ "s" 30 0).2.1
    (RedisEntry.mk [] none) he2 rfl
  have h3 := (c4_acquire_lifetime ⟨[("s", ⟨[], some 7⟩)]⟩ "s" 30 100).2.2
    (RedisEntry.mk [] (some 7)) 7 he3 rfl
  exact ⟨h1.1, h2, h3⟩

/-- C5: when the stored bytes for a session fail to decode, every bridge
operation proceeds exactly as if the session had an empty store: the
in-memory store used for the mutate step has no entries, and no error
reaches the caller (none of the operations has an error output). -/
theorem c5_decode_failure_as_empty (st : RedisState) (sid : String)
    (d : List Nat) (h1 : redisGet st sid = some d)
    (h2 : deserialize d = none) :
    Database.load st sid = NewStore ∧
    (∀ k, Database.Get st sid k = none) ∧
    Database.Visit st sid = [] ∧
    Database.Len st sid = 0 ∧
    (∀ k, Database.Delete st sid k = (st, false)) ∧
    Database.Clear st sid = st ∧
    (∀ lt k v imm, Database.Set st sid lt k v imm =
      Database.set st sid lt ⟨[(k, v)]⟩) := by
  have hl : Database.load st sid = NewStore := by
    unfold Database.load Database.get
    simp only [h1, h2]
  refine ⟨hl, fun k => ?_, ?_, ?_, fun k => ?_, ?_, fun lt k v imm => ?_⟩
  · unfold Database.Get
    rw [hl]
    rfl
  · unfold Database.Visit
    rw [hl]
    rfl
  · unfold Database.Len
    rw [hl]
    rfl
  · simp [Database.Delete, hl, NewStore, assocGet]
  · simp [Database.Clear, hl, NewStore]
  · simp [Database.Set, hl, NewStore, assocSet]

/-- Witness for C5 at a concrete corrupt payload `[5]` (a pair count with
no pair data). -/
theorem c5_decode_failure_as_empty_witness :
    Database.Get ⟨[("s", ⟨[5], some 10⟩)]⟩ "s" "k" = none ∧
    Database.Len ⟨[("s", ⟨[5], some 10⟩)]⟩ "s" = 0 ∧
    Database.Delete ⟨[("s", ⟨[5], some 10⟩)]⟩ "s" "k" =
      (⟨[("s", ⟨[5], some 10⟩)]⟩, false) ∧
    Database.Clear ⟨[("s", ⟨[5], some 10⟩)]⟩ "s" =
      ⟨[("s", ⟨[5], some 10⟩)]⟩ := by
  have h := c5_decode_failure_as_empty ⟨[("s", ⟨[5], some 10⟩)]⟩ "s" [5]
    (by rfl) (by rfl)
  exact ⟨h.2.1 "k", h.2.2.2.1, h.2.2.2.2.1 "k", h.2.2.2.2.2.1⟩

/-- C6: Deserialize either replaces the whole current mapping with exactly
the mapping encoded in the bytes (the result is independent of every prior
entry), or, on malformed or truncated input, returns a decoding error. -/
theorem c6_deserialize_replaces_or_errors (rs : Store) (b : List Nat) :
    (∀ m, deserialize b = some m →
      Store.deserializeOp rs b = Except.ok ⟨m⟩) ∧
    (deserialize b = none → Store.deserializeOp rs b = Except.error ()) ∧
    (∀ rs2 : Store, Store.deserializeOp rs b = Store.deserializeOp rs2 b) := by
  refine ⟨fun m hm => ?_, fun hn => ?_, fun rs2 => rfl⟩
  · unfold Store.deserializeOp
    rw [hm]
  · unfold Store.deserializeOp
    rw [hn]

/-- Witness for C6: valid bytes replace a non-empty prior mapping entirely;
truncated bytes produce the decoding error. -/
theorem c6_deserialize_replaces_or_errors_witness :
    Store.deserializeOp ⟨[("old", GoValue.str "o")]⟩ [1, 1, 107, 1, 118] =
      Except.ok ⟨[("k", GoValue.str "v")]⟩ ∧
    Store.deserializeOp ⟨[("old", GoValue.str "o")]⟩ [5] =
      Except.error () := by
  have h := c6_deserialize_replaces_or_errors ⟨[("old", GoValue.str "o")]⟩
    [1, 1, 107, 1, 118]
  have h2 := c6_deserialize_replaces_or_errors ⟨[("old", GoValue.str "o")]⟩ [5]
  exact ⟨h.1 [("k", GoValue.str "v")] (by decide), h2.2.1 (by rfl)⟩

/-- C7 counterexample: the claim says an encode failure inside a write
operation propagates to the caller. In the source, `Database.set` logs the
serialize error and returns without any error output (`Database.Set` has no
return value at all): at this concrete input the encode fails, yet the
whole observable result of the write is the unchanged external state, with
no error component anywhere. -/
theorem c7_encode_error_not_propagated :
    serialize [("k", GoValue.unencodable 0)] = none ∧
    Database.Set ⟨[]⟩ "s" 0 "k" (GoValue.unencodable 0) false = ⟨[]⟩ ∧
    Database.set ⟨[]⟩ "s" 0 ⟨[("k", GoValue.unencodable 0)]⟩ = ⟨[]⟩ :=
  ⟨rfl, rfl, rfl⟩

/-- C7 amended: among the bridge operations only OnUpdateExpiration
propagates an error value to its caller (passing the service result
through unchanged); a serialization encode failure inside a write operation
is logged and swallowed — the persist step is skipped, the external state
is unchanged, and the write returns normally with no error output. -/
theorem c7_only_onupdate_propagates (st : RedisState) (sid : String)
    (secs : Int) (store : Store) (h : serialize store.values = none) :
    Database.set st sid secs store = st ∧
    (∀ t, Database.OnUpdateExpiration st sid t = redisUpdateTTL st sid t) := by
  refine ⟨?_, fun t => rfl⟩
  unfold Database.set
  rw [h]

/-- Witness for the amended C7 at a store holding an unencodable value. -/
theorem c7_only_onupdate_propagates_witness :
    Database.set ⟨[("s", ⟨[], some 1⟩)]⟩ "s" 5
      ⟨[("k", GoValue.unencodable 3)]⟩ = ⟨[("s", ⟨[], some 1⟩)]⟩ :=
  (c7_only_onupdate_propagates ⟨[("s", ⟨[], some 1⟩)]⟩ "s" 5
    ⟨[("k", GoValue.unencodable 3)]⟩ rfl).1

/-- C8 counterexample: the claim says Serialize takes the shared lock and
Deserialize the exclusive lock; in the source neither method contains any
lock call. -/
theorem c8_serialize_deserialize_unlocked :
    Store.serializeLockKind ≠ LockKind.shared ∧
    Store.deserializeLockKind ≠ LockKind.exclusive ∧
    Store.serializeLockKind = LockKind.noLock ∧
    Store.deserializeLockKind = LockKind.noLock :=
  ⟨by decide, by decide, rfl, rfl⟩

/-- C8 amended: Set, Delete and Flush acquire the exclusive lock and Get
the shared lock, so these three mutations are mutually exclusive with each
other and with Get; Serialize and Deserialize acquire no lock at all and
are therefore excluded from nothing. -/
theorem c8_lock_discipline :
    Store.setLockKind = LockKind.exclusive ∧
    Store.deleteLockKind = LockKind.exclusive ∧
    Store.flushLockKind = LockKind.exclusive ∧
    Store.getLockKind = LockKind.shared ∧
    Store.serializeLockKind = LockKind.noLock ∧
    Store.deserializeLockKind = LockKind.noLock ∧
    LockKind.excludes Store.setLockKind Store.deleteLockKind = true ∧
    LockKind.excludes Store.setLockKind Store.flushLockKind = true ∧
    LockKind.excludes Store.deleteLockKind Store.flushLockKind = true ∧
    LockKind.excludes Store.setLockKind Store.getLockKind = true ∧
    LockKind.excludes Store.deleteLockKind Store.getLockKind = true ∧
    LockKind.excludes Store.flushLockKind Store.getLockKind = true ∧
    (∀ k : LockKind, LockKind.excludes Store.serializeLockKind k = false) ∧
    (∀ k : LockKind, LockKind.excludes Store.deserializeLockKind k = false) := by
  refine ⟨rfl, rfl, rfl, rfl, rfl, rfl, rfl, rfl, rfl, rfl, rfl, rfl,
    fun k => ?_, fun k => ?_⟩ <;> cases k <;> rfl

/-- C9: a session identifier absent from the external store makes
`Database.Get` return the absent sentinel (its type carries no error), and
`Store.Get` on a key absent from the map returns the nil sentinel rather
than an error. -/
theorem c9_absent_is_sentinel_not_error (st : RedisState) (sid : String) :
    (redisGet st sid = none → ∀ k, Database.Get st sid k = none) ∧
    (∀ (rs : Store) (k : String), assocGet rs.values k = none →
      Store.get rs k = none) := by
  refine ⟨fun h k => ?_, fun rs k h => ?_⟩
  · unfold Database.Get Database.load Database.get
    simp only [h]
    rfl
  · unfold Store.get
    rw [h]

/-- Witness for C9 at the empty external store and the empty value store. -/
theorem c9_absent_is_sentinel_not_error_witness :
    Database.Get ⟨[]⟩ "s" "k" = none ∧ Store.get ⟨[]⟩ "k" = none := by
  have h := c9_absent_is_sentinel_not_error ⟨[]⟩ "s"
  exact ⟨h.1 rfl "k", h.2 ⟨[]⟩ "k" rfl⟩

/-- C10: `Store.Set` and `Store.Delete` return the nil error for every
input — at the ValueStore interface these two operations cannot fail. -/
theorem c10_set_delete_never_fail (rs : Store) (k : String) (v : GoValue) :
    (Store.set rs k v).2 = none ∧ (Store.delete rs k).2 = none :=
  ⟨rfl, rfl⟩

end IrisRedis
